import Mathlib

/-!
Verification of the EzShareCLI transfer pipeline core.

Shallow embedding of the repository's codec code:
  * `src/utils/crypto.ts`   — chunked AEAD stream codec (AES-256-GCM framing)
  * `src/utils/compression.ts` — flag-byte compression framing
  * `src/utils/tar.ts`      — archive pack / extract / metadata probe

Bytes are modelled as `Nat` (honest wire bytes are `< 256`; widening the
domain only strengthens universally quantified statements).  A byte stream
is a `List Nat`; the sequence of `data` events delivered to a Node
`Transform` is a `List (List Nat)` of write chunks.  The AES-256-GCM
primitive itself is library code, not repository code, so the stream-codec
definitions are parameterised over the cipher functions `gcmEnc`, `gcmTag`
and `gcmDec`; theorems assume only the standard AEAD contract
(length-preservation, 16-byte tags, decrypt-of-encrypt, authenticity, and
the idealised key/nonce binding of the tag that the spec glosses as
"with overwhelming probability").  A concrete executable instance
(`idealEnc`/`idealTag`/`idealDec`) satisfying the contract is used by the
closed witness theorems.

Loops in the source (`while (buffer.length >= CHUNK_SIZE)` in the encoder,
the chunk loop of the decoder) are modelled with an explicit fuel argument;
the top-level entry points pass fuel that provably dominates the number of
iterations (each encoder iteration consumes `CHUNK_SIZE` buffered bytes,
each decoder iteration consumes at least 21 wire bytes), so the fuelled
functions compute exactly what the source loops compute.
-/

namespace EzShare

/-! ## Constants (src/utils/crypto.ts lines 142-148) -/

def CHUNK_SIZE : Nat := 64 * 1024
def NONCE_PREFIX_SIZE : Nat := 4
def NONCE_SIZE : Nat := 12
def TAG_SIZE : Nat := 16
def LENGTH_SIZE : Nat := 4
def KEY_SIZE : Nat := 32

/-- A list of honest wire bytes: every element is below 256. -/
def ByteList (l : List Nat) : Prop := ∀ b ∈ l, b < 256

instance (l : List Nat) : Decidable (ByteList l) :=
  inferInstanceAs (Decidable (∀ b ∈ l, b < 256))

/-- Transpose the entries at positions `i` and `j` of a list of byte
strings (used to state the chunk-reordering claim). -/
def swapL (l : List (List Nat)) (i j : Nat) : List (List Nat) :=
  (l.set i (l.getD j [])).set j (l.getD i [])

/-! ## Buffer primitives

`writeUInt32BE`/`readUInt32BE` model Node's `Buffer.writeUInt32BE` /
`Buffer.readUInt32BE(0)`; `writeUInt64BE` models `Buffer.writeBigUInt64BE`
(big-endian byte extraction). -/

def writeUInt32BE (n : Nat) : List Nat :=
  [n / 2 ^ 24 % 256, n / 2 ^ 16 % 256, n / 2 ^ 8 % 256, n % 256]

def readUInt32BE : List Nat → Nat
  | b0 :: b1 :: b2 :: b3 :: _ => ((b0 * 256 + b1) * 256 + b2) * 256 + b3
  | _ => 0

def writeUInt64BE (n : Nat) : List Nat :=
  [n / 2 ^ 56 % 256, n / 2 ^ 48 % 256, n / 2 ^ 40 % 256, n / 2 ^ 32 % 256,
   n / 2 ^ 24 % 256, n / 2 ^ 16 % 256, n / 2 ^ 8 % 256, n % 256]

/-- `makeNonce` (crypto.ts lines 199-204): a 12-byte nonce built from a
4-byte prefix (`prefix.copy(nonce, 0, 0, 4)` over a zero-filled buffer)
followed by the 8-byte big-endian counter. -/
def makeNonce (pfx : List Nat) (counter : Nat) : List Nat :=
  (pfx.take NONCE_PREFIX_SIZE ++
    List.replicate (NONCE_PREFIX_SIZE - pfx.length) 0) ++ writeUInt64BE counter

/-! ## Chunk cipher (crypto.ts lines 209-250)

The cipher functions are parameters: `gcmEnc key nonce pt` is the GCM
ciphertext, `gcmTag key nonce pt` the authentication tag, and
`gcmDec key nonce ct tag` returns `some pt` on tag verification success
and `none` on authentication failure (`decipher.final()` throwing). -/

/-- `encryptChunk` (crypto.ts lines 209-231): output buffer
`[length_be32][ciphertext][tag]`. The output is allocated as
`LENGTH_SIZE + ciphertext.length + TAG_SIZE` zero-filled bytes and the tag
is copied into the final 16-byte slot, hence the take/pad on the tag. -/
def encryptChunk (gcmEnc gcmTag : List Nat → List Nat → List Nat → List Nat)
    (key noncePrefix : List Nat) (counter : Nat) (plaintext : List Nat) : List Nat :=
  let nonce := makeNonce noncePrefix counter
  let ciphertext := gcmEnc key nonce plaintext
  let tag := gcmTag key nonce plaintext
  writeUInt32BE plaintext.length ++ ciphertext ++
    (tag.take TAG_SIZE ++ List.replicate (TAG_SIZE - tag.length) 0)

/-! ## Encrypting transform stream (crypto.ts lines 263-318) -/

/-- Mutable state of the encrypting `Transform`. -/
structure EncSt where
  buffer : List Nat
  counter : Nat
  headerSent : Bool

/-- The `while (buffer.length >= CHUNK_SIZE)` loop of the encoder's
`transform` callback, with fuel.  Returns the emitted bytes, the final
counter and the remaining buffer.  Each iteration removes `CHUNK_SIZE`
bytes, so fuel `≥ buffer.length` suffices for the loop to run to its
real exit condition. -/
def encLoop (gcmEnc gcmTag : List Nat → List Nat → List Nat → List Nat)
    (key noncePrefix : List Nat) : Nat → Nat → List Nat → List Nat × Nat × List Nat
  | 0, counter, buf => ([], counter, buf)
  | fuel + 1, counter, buf =>
    if CHUNK_SIZE ≤ buf.length then
      let out := encryptChunk gcmEnc gcmTag key noncePrefix counter (buf.take CHUNK_SIZE)
      let rest := encLoop gcmEnc gcmTag key noncePrefix fuel (counter + 1) (buf.drop CHUNK_SIZE)
      (out ++ rest.1, rest.2)
    else ([], counter, buf)

/-- One `transform(chunk)` callback of `createEncryptStream`: push the
nonce prefix if not yet sent, append the chunk to the buffer, and drain
complete `CHUNK_SIZE` chunks. -/
def encTransform (gcmEnc gcmTag : List Nat → List Nat → List Nat → List Nat)
    (key noncePrefix : List Nat) (st : EncSt) (chunk : List Nat) : EncSt × List Nat :=
  let header := if st.headerSent then [] else noncePrefix
  let buf := st.buffer ++ chunk
  let r := encLoop gcmEnc gcmTag key noncePrefix buf.length st.counter buf
  (⟨r.2.2, r.2.1, true⟩, header ++ r.1)

/-- The `flush` callback of `createEncryptStream`: encrypt any non-empty
residual buffer, then push the 4-zero-byte end marker
(`Buffer.alloc(LENGTH_SIZE, 0)`). -/
def encFlush (gcmEnc gcmTag : List Nat → List Nat → List Nat → List Nat)
    (key noncePrefix : List Nat) (st : EncSt) : List Nat :=
  (if 0 < st.buffer.length then
    encryptChunk gcmEnc gcmTag key noncePrefix st.counter st.buffer
  else []) ++ [0, 0, 0, 0]

/-- Run the encrypting transform over a list of write events, then flush. -/
def encRun (gcmEnc gcmTag : List Nat → List Nat → List Nat → List Nat)
    (key noncePrefix : List Nat) (st : EncSt) : List (List Nat) → List Nat
  | [] => encFlush gcmEnc gcmTag key noncePrefix st
  | w :: ws =>
    let r := encTransform gcmEnc gcmTag key noncePrefix st w
    r.2 ++ encRun gcmEnc gcmTag key noncePrefix r.1 ws

/-- `createEncryptStream` (crypto.ts lines 263-318): the total output of
the encrypting transform on a sequence of write events.  The nonce prefix
is a parameter (the source draws it with `randomBytes(4)`); the counter
starts at 0 and the buffer empty. -/
def createEncryptStream (gcmEnc gcmTag : List Nat → List Nat → List Nat → List Nat)
    (key noncePrefix : List Nat) (writes : List (List Nat)) : List Nat :=
  encRun gcmEnc gcmTag key noncePrefix ⟨[], 0, false⟩ writes

/-! ## Decrypting transform stream (crypto.ts lines 332-410) -/

/-- Result of running the decrypting transform to end of input.
`ok out` : the stream ended without error, having emitted `out`;
`authenticationFailure` : `decryptChunk` threw (tag verification failed)
and the error was surfaced through the transform callback.  Note the
source `Transform` has no `flush` handler: end of input in any state other
than after the end marker is NOT an error — it simply ends the stream. -/
inductive DecOut where
  | ok : List Nat → DecOut
  | authenticationFailure : DecOut
deriving DecidableEq, Repr

/-- Prepend already-emitted plaintext to a decoder outcome (failures
propagate unchanged). -/
def DecOut.prepend (p : List Nat) : DecOut → DecOut
  | .ok out => .ok (p ++ out)
  | .authenticationFailure => .authenticationFailure

/-- The chunk-processing loop of `createDecryptStream`'s `transform`
callback (phase 2), with fuel.  `counter` is the chunk counter,
`buf` the unconsumed bytes after the nonce prefix.  Mirrors the source:
fewer than 4 bytes → wait for data (end of input: nothing more happens);
length field 0 → `ended = true` (any trailing bytes are discarded);
fewer than `length + 16` bytes → wait; otherwise split ciphertext and
tag, decrypt (authentication failure aborts), emit and continue.  Each
recursive step consumes `4 + length + 16 ≥ 21` bytes, so fuel
`≥ buf.length` suffices. -/
def decLoop (gcmDec : List Nat → List Nat → List Nat → List Nat → Option (List Nat))
    (key noncePrefix : List Nat) : Nat → Nat → List Nat → DecOut
  | 0, _, _ => .ok []
  | fuel + 1, counter, buf =>
    if buf.length < LENGTH_SIZE then .ok []
    else
      let chunkLength := readUInt32BE buf
      let rest := buf.drop LENGTH_SIZE
      if chunkLength = 0 then .ok []
      else if rest.length < chunkLength + TAG_SIZE then .ok []
      else
        let ciphertext := rest.take chunkLength
        let tag := (rest.drop chunkLength).take TAG_SIZE
        match gcmDec key (makeNonce noncePrefix counter) ciphertext tag with
        | none => .authenticationFailure
        | some plaintext =>
          match decLoop gcmDec key noncePrefix fuel (counter + 1)
              (rest.drop (chunkLength + TAG_SIZE)) with
          | .ok out => .ok (plaintext ++ out)
          | e => e

/-- `createDecryptStream` (crypto.ts lines 332-410) run to end of input:
phase 1 consumes the first 4 bytes as the nonce prefix (end of input
before that: the stream just ends, emitting nothing), then the chunk
loop runs on the remainder. -/
def createDecryptStream (gcmDec : List Nat → List Nat → List Nat → List Nat → Option (List Nat))
    (key : List Nat) (input : List Nat) : DecOut :=
  if input.length < NONCE_PREFIX_SIZE then .ok []
  else decLoop gcmDec key (input.take NONCE_PREFIX_SIZE) input.length 0
    (input.drop NONCE_PREFIX_SIZE)

/-! ## Specification-level chunk decomposition

`chunkify p` is the list of plaintext chunks the encoder emits for total
input `p`: full `CHUNK_SIZE` chunks from the transform loop, then the
non-empty residual from `flush`. -/

def chunkLoop : Nat → List Nat → List (List Nat)
  | 0, _ => []
  | fuel + 1, buf =>
    if CHUNK_SIZE ≤ buf.length then
      buf.take CHUNK_SIZE :: chunkLoop fuel (buf.drop CHUNK_SIZE)
    else []

def chunkRest : Nat → List Nat → List Nat
  | 0, buf => buf
  | fuel + 1, buf =>
    if CHUNK_SIZE ≤ buf.length then chunkRest fuel (buf.drop CHUNK_SIZE) else buf

def chunkify (p : List Nat) : List (List Nat) :=
  chunkLoop p.length p ++
    (if 0 < (chunkRest p.length p).length then [chunkRest p.length p] else [])

/-- The wire records of a list of plaintext chunks, with consecutive
counters starting at `c`. -/
def encRecords (gcmEnc gcmTag : List Nat → List Nat → List Nat → List Nat)
    (key noncePrefix : List Nat) : Nat → List (List Nat) → List (List Nat)
  | _, [] => []
  | c, q :: qs =>
    encryptChunk gcmEnc gcmTag key noncePrefix c q ::
      encRecords gcmEnc gcmTag key noncePrefix (c + 1) qs

/-! ## A concrete AEAD instance

The theorems below are parameterised over the cipher; this executable
instance satisfies the assumed AEAD contract and is used by the closed
witness and counterexample theorems.  It is an idealisation (ciphertext =
plaintext, tag = an injective encoding of key and nonce), standing in for
AES-256-GCM, whose wrong-key and wrong-nonce rejection the spec itself
qualifies as holding "with overwhelming probability". -/

/-- Injective encoding of a byte list (elements < 256) into a `Nat`. -/
def encodeBytes (l : List Nat) : Nat :=
  l.foldr (fun b a => a * 257 + (b + 1)) 0

def idealEnc (_key _nonce plaintext : List Nat) : List Nat := plaintext

def idealTag (key nonce _plaintext : List Nat) : List Nat :=
  encodeBytes key :: encodeBytes nonce :: List.replicate 14 0

def idealDec (key nonce ciphertext tag : List Nat) : Option (List Nat) :=
  if tag = idealTag key nonce ciphertext then some ciphertext else none

/-! ## Compression framing (src/utils/compression.ts)

Only the flag-byte framing is repository code; the Zstandard codec is an
external library, abstracted as a function `zstdC` from the full input to
the full compressed output. -/

def FLAG_RAW : Nat := 0x00
def FLAG_COMPRESSED : Nat := 0x01

/-- `createFlagPrepender` (compression.ts lines 112-129) run over a list
of write events: the flag byte is pushed before the first chunk; there is
no `flush` handler, so nothing at all is pushed when no data event ever
arrives. -/
def flagPrependRun (flag : Nat) (flagSent : Bool) : List (List Nat) → List Nat
  | [] => []
  | w :: ws => (if flagSent then [] else [flag]) ++ w ++ flagPrependRun flag true ws

def createFlagPrepender (flag : Nat) (writes : List (List Nat)) : List Nat :=
  flagPrependRun flag false writes

/-- `createCompressStream` (compression.ts lines 146-207) run to end of
input.  Disabled: the raw flag prepender.  Enabled: the wrapper pushes
`0x01` before the first zstd output chunk, and its `flush` pushes the flag
if zstd produced no output at all (the "empty input" edge case in the
source). -/
def createCompressStream (zstdC : List Nat → List Nat) (compress : Bool)
    (writes : List (List Nat)) : List Nat :=
  if compress then
    let out := zstdC writes.flatten
    if out = [] then [FLAG_COMPRESSED] else FLAG_COMPRESSED :: out
  else createFlagPrepender FLAG_RAW writes

/-! ## Archive extraction output path (src/utils/tar.ts lines 448-489)

`createExtractStream`'s `entry` handler computes
`outputPath = join(destPath, header.name)` and immediately creates parent
directories and writes — there is no check of any kind on `header.name`.
`path.join` concatenates and normalises, resolving `..` components.  The
destination is modelled as an absolute, already-normalised component
list; the entry name is split on `/` and normalisation folds components
over it (`..` pops, `.` and empty components vanish). -/

/-- Split a name (as ASCII codes) on `/` (code 47). -/
def splitPath : List Nat → List Nat → List (List Nat)
  | cur, [] => [cur.reverse]
  | cur, c :: cs => if c = 47 then cur.reverse :: splitPath [] cs else splitPath (c :: cur) cs

def pathComponents (name : List Nat) : List (List Nat) :=
  splitPath [] name

/-- POSIX path normalisation over components, as `path.join` performs on
an absolute, already-normalised destination: `..` (codes `[46, 46]`) pops
the last component, `.` (`[46]`) and empty components vanish, anything
else is appended. -/
def resolveEntryPath (destPath : List (List Nat)) (nameComponents : List (List Nat)) :
    List (List Nat) :=
  nameComponents.foldl
    (fun acc c =>
      if c = [46, 46] then acc.dropLast
      else if c = [46] ∨ c = [] then acc
      else acc ++ [c])
    destPath

/-- The output path `createExtractStream destPath` writes a tar entry
named `name` to: `join(destPath, header.name)`.  No error path exists in
the source — the name is used as-is. -/
def extractOutputPath (destPath : List (List Nat)) (name : List Nat) : List (List Nat) :=
  resolveEntryPath destPath (pathComponents name)

/-! ## Topic key display / parse (src/utils/crypto.ts lines 174-194)

`generateTopicKey` encodes the 32 random topic bytes as unpadded
base64url (`Buffer.toString('base64url')`); `parseTopicKey` decodes
(`Buffer.from(displayKey, 'base64url')`, which silently skips characters
outside the alphabet) and checks the length is 32.  Display strings are
modelled as lists of ASCII codes. -/

/-- Byte triples to 6-bit groups (big-endian), with the partial final
group as produced by unpadded base64. -/
def toSextets : List Nat → List Nat
  | b1 :: b2 :: b3 :: rest =>
    b1 / 4 :: (b1 % 4 * 16 + b2 / 16) :: (b2 % 16 * 4 + b3 / 64) :: b3 % 64 ::
      toSextets rest
  | [b1, b2] => [b1 / 4, b1 % 4 * 16 + b2 / 16, b2 % 16 * 4]
  | [b1] => [b1 / 4, b1 % 4 * 16]
  | [] => []

/-- 6-bit groups back to bytes; a lone trailing sextet carries fewer than
8 bits and is dropped, as Node's base64 decoder does. -/
def fromSextets : List Nat → List Nat
  | s1 :: s2 :: s3 :: s4 :: rest =>
    (s1 * 4 + s2 / 16) :: (s2 % 16 * 16 + s3 / 4) :: (s3 % 4 * 64 + s4) ::
      fromSextets rest
  | [s1, s2, s3] => [s1 * 4 + s2 / 16, s2 % 16 * 16 + s3 / 4]
  | [s1, s2] => [s1 * 4 + s2 / 16]
  | _ => []

/-- The base64url alphabet: sextet value to ASCII code. -/
def b64code (n : Nat) : Nat :=
  if n < 26 then 65 + n
  else if n < 52 then 97 + (n - 26)
  else if n < 62 then 48 + (n - 52)
  else if n = 62 then 45
  else 95

/-- ASCII code back to sextet value. -/
def b64val (c : Nat) : Nat :=
  if 65 ≤ c ∧ c ≤ 90 then c - 65
  else if 97 ≤ c ∧ c ≤ 122 then 26 + (c - 97)
  else if 48 ≤ c ∧ c ≤ 57 then 52 + (c - 48)
  else if c = 45 then 62
  else 63

/-- Membership in the base64url alphabet (codes outside it are skipped by
Node's lenient base64 decoder). -/
def isB64 (c : Nat) : Bool :=
  (65 ≤ c && c ≤ 90) || (97 ≤ c && c ≤ 122) || (48 ≤ c && c ≤ 57) || c = 45 || c = 95

/-- The display key of `generateTopicKey` for topic bytes `t`
(`t.toString('base64url')`), as ASCII codes. -/
def displayKey (t : List Nat) : List Nat :=
  (toSextets t).map b64code

/-- `parseTopicKey` (crypto.ts lines 186-194): decode base64url leniently
and require exactly `KEY_SIZE` bytes; `none` models the thrown
`Invalid key` error. -/
def parseTopicKey (s : List Nat) : Option (List Nat) :=
  let topic := fromSextets ((s.filter (fun c => isB64 c)).map b64val)
  if topic.length = KEY_SIZE then some topic else none

/-! ## Archive pack and metadata probe (src/utils/tar.ts)

The filesystem is modelled as a tree: regular files with content bytes,
directories with an ordered child list (the `readdir` order), and `other`
for the non-regular entry types that both the metadata walk and the pack
walk skip (their dirent is neither `isDirectory()` nor `isFile()`). -/

mutual
inductive FSTree where
  | file : String → List Nat → FSTree
  | dir : String → FSForest → FSTree
  | other : String → FSTree
inductive FSForest where
  | nil : FSForest
  | cons : FSTree → FSForest → FSForest
end

/-- One emitted tar entry of the pack stream: name, whether it is a file
entry, and (for files) the streamed content. -/
structure PackEntry where
  name : String
  isFile : Bool
  content : List Nat

mutual
/-- The entries `addDirectory` (tar.ts lines 385-431) emits for one
dirent, where `pre` is the name prefix (`relative(basePath, ...)` of the
containing directory plus `/`).  A directory contributes its own entry
(trailing slash, no content) followed by its recursive contents; a file
contributes one file entry; other types are skipped. -/
def packTree (pre : String) : FSTree → List PackEntry
  | .file n c => [⟨pre ++ n, true, c⟩]
  | .dir n f => ⟨pre ++ n ++ "/", false, []⟩ :: packForest (pre ++ n ++ "/") f
  | .other _ => []
/-- `addDirectory` over a `readdir` listing, in order. -/
def packForest (pre : String) : FSForest → List PackEntry
  | .nil => []
  | .cons t f => packTree pre t ++ packForest pre f
end

/-- `createPackStream` (tar.ts lines 352-441) as its emitted entry list:
a non-directory source is packed as a single entry named by its basename;
a directory is walked with the source basename as top-level prefix
(`addDirectory(sourcePath, dirname(sourcePath))`). -/
def createPackStream : FSTree → List PackEntry
  | .file n c => [⟨n, true, c⟩]
  | .other n => [⟨n, true, []⟩]
  | .dir n f => packForest (n ++ "/") f

/-- Result record of `getTransferMetadata` (tar.ts lines 295-345). -/
structure TransferMetadata where
  totalSize : Nat
  fileCount : Nat
  isDirectory : Bool
deriving Repr, DecidableEq

mutual
/-- The recursive `walk` of `getTransferMetadata` (tar.ts lines 322-336):
directories are recursed into, files add their size and count 1, other
entry types are skipped.  Returns (totalSize, fileCount). -/
def metaTree : FSTree → Nat × Nat
  | .file _ c => (c.length, 1)
  | .dir _ f => metaForest f
  | .other _ => (0, 0)
def metaForest : FSForest → Nat × Nat
  | .nil => (0, 0)
  | .cons t f => (((metaTree t).1 + (metaForest f).1), ((metaTree t).2 + (metaForest f).2))
end

/-- `getTransferMetadata` (tar.ts lines 306-345): a non-directory source
reports its own size and file count 1; a directory walks recursively.
(`other` at top level: `stat` reports `isDirectory() = false` and size 0
for such nodes, modelled consistently with `createPackStream` reading no
content from them.) -/
def getTransferMetadata : FSTree → TransferMetadata
  | .file _ c => ⟨c.length, 1, false⟩
  | .other _ => ⟨0, 1, false⟩
  | .dir _ f => ⟨(metaForest f).1, (metaForest f).2, true⟩

/-- Number of file entries the pack stream emits. -/
def packFileCount (es : List PackEntry) : Nat :=
  (es.filter (fun e => e.isFile)).length

/-- Total content bytes the pack stream emits across its file entries. -/
def packTotalSize (es : List PackEntry) : Nat :=
  ((es.filter (fun e => e.isFile)).map (fun e => e.content.length)).sum

/-! # Theorems -/

/-! ## Byte-encoding and nonce facts -/

theorem encodeBytes_nil : encodeBytes [] = 0 := rfl

theorem encodeBytes_cons (b : Nat) (l : List Nat) :
    encodeBytes (b :: l) = encodeBytes l * 257 + (b + 1) := rfl

theorem encodeBytes_inj : ∀ (l l' : List Nat), ByteList l → ByteList l' →
    encodeBytes l = encodeBytes l' → l = l'
  | [], [], _, _, _ => rfl
  | [], b' :: t', _, _, h => by
    rw [encodeBytes_nil, encodeBytes_cons] at h; omega
  | b :: t, [], _, _, h => by
    rw [encodeBytes_nil, encodeBytes_cons] at h; omega
  | b :: t, b' :: t', hl, hl', h => by
    rw [encodeBytes_cons, encodeBytes_cons] at h
    have hb : b < 256 := hl b (by simp)
    have hb' : b' < 256 := hl' b' (by simp)
    have hbb : b = b' ∧ encodeBytes t = encodeBytes t' := by omega
    have ht : t = t' := encodeBytes_inj t t'
      (fun x hx => hl x (by simp [hx])) (fun x hx => hl' x (by simp [hx])) hbb.2
    rw [hbb.1, ht]

theorem idealEnc_length (k n p : List Nat) : (idealEnc k n p).length = p.length := rfl

theorem idealTag_length (k n p : List Nat) : (idealTag k n p).length = TAG_SIZE := rfl

theorem idealDec_enc (k n p : List Nat) :
    idealDec k n (idealEnc k n p) (idealTag k n p) = some p := by
  simp [idealDec, idealEnc, idealTag]

theorem idealDec_auth (k n c t p : List Nat) (h : idealDec k n c t = some p) :
    t = idealTag k n p := by
  unfold idealDec at h
  split at h
  · rename_i heq
    cases h
    exact heq
  · cases h

theorem idealTag_bind (k k' n n' p p' : List Nat)
    (hk : ByteList k) (hk' : ByteList k') (hn : ByteList n) (hn' : ByteList n')
    (h : idealTag k n p = idealTag k' n' p') : k = k' ∧ n = n' := by
  unfold idealTag at h
  injection h with h1 h2
  injection h2 with h2 _
  exact ⟨encodeBytes_inj k k' hk hk' h1, encodeBytes_inj n n' hn hn' h2⟩

theorem writeUInt32BE_length (n : Nat) : (writeUInt32BE n).length = 4 := rfl

theorem readUInt32BE_write (n : Nat) (h : n < 2 ^ 32) (rest : List Nat) :
    readUInt32BE (writeUInt32BE n ++ rest) = n := by
  simp only [writeUInt32BE, List.cons_append, List.nil_append, readUInt32BE]
  omega

theorem writeUInt64BE_inj (c c' : Nat) (h : c < 2 ^ 64) (h' : c' < 2 ^ 64)
    (he : writeUInt64BE c = writeUInt64BE c') : c = c' := by
  simp only [writeUInt64BE, List.cons.injEq, and_true] at he
  omega

theorem makeNonce_four (pfx : List Nat) (hl : pfx.length = NONCE_PREFIX_SIZE) (c : Nat) :
    makeNonce pfx c = pfx ++ writeUInt64BE c := by
  simp [makeNonce, hl, List.take_of_length_le, Nat.le_of_eq hl]

theorem byteList_makeNonce (pfx : List Nat) (hp : ByteList pfx) (c : Nat) :
    ByteList (makeNonce pfx c) := by
  intro b hb
  simp only [makeNonce, writeUInt64BE, List.mem_append] at hb
  rcases hb with (hb | hb) | hb
  · exact hp b (List.mem_of_mem_take hb)
  · rw [List.eq_of_mem_replicate hb]; omega
  · simp only [List.mem_cons, List.not_mem_nil, or_false] at hb
    rcases hb with h | h | h | h | h | h | h | h <;> omega

theorem makeNonce_counter_inj (pfx : List Nat) (c c' : Nat)
    (h : c < 2 ^ 64) (h' : c' < 2 ^ 64)
    (he : makeNonce pfx c = makeNonce pfx c') : c = c' := by
  unfold makeNonce at he
  exact writeUInt64BE_inj c c' h h' (List.append_cancel_left he)

/-! ## Chunk decomposition facts -/

theorem chunkLoop_flatten_rest : ∀ (fuel : Nat) (buf : List Nat),
    (chunkLoop fuel buf).flatten ++ chunkRest fuel buf = buf
  | 0, buf => by simp [chunkLoop, chunkRest]
  | fuel + 1, buf => by
    by_cases h : CHUNK_SIZE ≤ buf.length
    · simp only [chunkLoop, chunkRest, if_pos h, List.flatten_cons, List.append_assoc]
      rw [chunkLoop_flatten_rest fuel (buf.drop CHUNK_SIZE)]
      exact List.take_append_drop CHUNK_SIZE buf
    · simp [chunkLoop, chunkRest, if_neg h]

theorem chunkLoop_mem_length : ∀ (fuel : Nat) (buf q : List Nat),
    q ∈ chunkLoop fuel buf → q.length = CHUNK_SIZE
  | 0, buf, q, h => by simp [chunkLoop] at h
  | fuel + 1, buf, q, h => by
    by_cases hc : CHUNK_SIZE ≤ buf.length
    · simp only [chunkLoop, if_pos hc, List.mem_cons] at h
      rcases h with h | h
      · rw [h, List.length_take]; omega
      · exact chunkLoop_mem_length fuel _ q h
    · simp [chunkLoop, if_neg hc] at h

theorem chunkRest_length_lt : ∀ (fuel : Nat) (buf : List Nat), buf.length ≤ fuel →
    (chunkRest fuel buf).length < CHUNK_SIZE
  | 0, buf, h => by
    have : buf.length = 0 := by omega
    simp only [chunkRest, this]
    simp [CHUNK_SIZE]
  | fuel + 1, buf, h => by
    by_cases hc : CHUNK_SIZE ≤ buf.length
    · simp only [chunkRest, if_pos hc]
      exact chunkRest_length_lt fuel _ (by simp [CHUNK_SIZE] at hc ⊢; omega)
    · simp only [chunkRest, if_neg hc]
      omega

theorem chunkLoop_count : ∀ (fuel : Nat) (buf : List Nat), buf.length ≤ fuel →
    (chunkLoop fuel buf).length = buf.length / CHUNK_SIZE
  | 0, buf, h => by
    have : buf.length = 0 := by omega
    simp [chunkLoop, this]
  | fuel + 1, buf, h => by
    by_cases hc : CHUNK_SIZE ≤ buf.length
    · simp only [chunkLoop, if_pos hc, List.length_cons]
      rw [chunkLoop_count fuel _ (by simp [CHUNK_SIZE] at hc ⊢; omega)]
      simp only [List.length_drop, CHUNK_SIZE] at hc ⊢
      omega
    · simp only [chunkLoop]
      rw [if_neg hc]
      simp only [List.length_nil, CHUNK_SIZE] at hc ⊢
      omega

theorem chunkRest_length_mod : ∀ (fuel : Nat) (buf : List Nat), buf.length ≤ fuel →
    (chunkRest fuel buf).length = buf.length % CHUNK_SIZE
  | 0, buf, h => by
    have : buf.length = 0 := by omega
    simp [chunkRest, this]
  | fuel + 1, buf, h => by
    by_cases hc : CHUNK_SIZE ≤ buf.length
    · simp only [chunkRest, if_pos hc]
      rw [chunkRest_length_mod fuel _ (by simp [CHUNK_SIZE] at hc ⊢; omega)]
      simp only [List.length_drop, CHUNK_SIZE] at hc ⊢
      omega
    · simp only [chunkRest]
      rw [if_neg hc]
      simp only [CHUNK_SIZE] at hc ⊢
      omega

theorem chunkify_flatten (p : List Nat) : (chunkify p).flatten = p := by
  unfold chunkify
  by_cases h : 0 < (chunkRest p.length p).length
  · rw [if_pos h, List.flatten_append]
    simpa using chunkLoop_flatten_rest p.length p
  · rw [if_neg h, List.append_nil]
    have hr : chunkRest p.length p = [] := by
      cases hx : chunkRest p.length p
      · rfl
      · rw [hx] at h; simp at h
    have := chunkLoop_flatten_rest p.length p
    rw [hr, List.append_nil] at this
    exact this

theorem chunkify_mem (p q : List Nat) (h : q ∈ chunkify p) :
    q ≠ [] ∧ q.length ≤ CHUNK_SIZE := by
  unfold chunkify at h
  rw [List.mem_append] at h
  rcases h with h | h
  · have := chunkLoop_mem_length p.length p q h
    constructor
    · intro hq; rw [hq] at this; simp [CHUNK_SIZE] at this
    · omega
  · by_cases hr : 0 < (chunkRest p.length p).length
    · rw [if_pos hr, List.mem_singleton] at h
      subst h
      have := chunkRest_length_lt p.length p (Nat.le_refl _)
      constructor
      · intro hq; rw [hq] at hr; simp at hr
      · omega
    · rw [if_neg hr] at h; simp at h

theorem chunkify_length (p : List Nat) (hp : p ≠ []) :
    (chunkify p).length = (p.length + (CHUNK_SIZE - 1)) / CHUNK_SIZE := by
  have hlen : 0 < p.length := List.length_pos.mpr hp
  unfold chunkify
  rw [List.length_append, chunkLoop_count p.length p (Nat.le_refl _)]
  have hmod := chunkRest_length_mod p.length p (Nat.le_refl _)
  by_cases h : 0 < (chunkRest p.length p).length
  · rw [if_pos h]
    simp only [List.length_singleton, CHUNK_SIZE] at hmod h ⊢
    omega
  · rw [if_neg h]
    simp only [List.length_nil, CHUNK_SIZE] at hmod h ⊢
    omega

/-! ## Encoder characterisation -/

section Encoder

variable (gcmEnc gcmTag : List Nat → List Nat → List Nat → List Nat)
variable (key pfx : List Nat)

theorem encRecords_append (c : Nat) (as bs : List (List Nat)) :
    encRecords gcmEnc gcmTag key pfx c (as ++ bs) =
      encRecords gcmEnc gcmTag key pfx c as ++
        encRecords gcmEnc gcmTag key pfx (c + as.length) bs := by
  induction as generalizing c with
  | nil => simp [encRecords]
  | cons a t ih =>
    simp only [List.cons_append, encRecords, List.append_eq, ih (c + 1), List.length_cons]
    have h : c + 1 + t.length = c + (t.length + 1) := by omega
    rw [h]

theorem encRecords_length (c : Nat) (qs : List (List Nat)) :
    (encRecords gcmEnc gcmTag key pfx c qs).length = qs.length := by
  induction qs generalizing c with
  | nil => rfl
  | cons q t ih => simp [encRecords, ih]

theorem encRecords_take (c i : Nat) (qs : List (List Nat)) :
    (encRecords gcmEnc gcmTag key pfx c qs).take i =
      encRecords gcmEnc gcmTag key pfx c (qs.take i) := by
  induction qs generalizing c i with
  | nil => simp [encRecords]
  | cons q t ih =>
    cases i with
    | zero => simp [encRecords]
    | succ n => simp [encRecords, ih]

theorem encRecords_getD (c j : Nat) (qs : List (List Nat)) (hj : j < qs.length) :
    (encRecords gcmEnc gcmTag key pfx c qs).getD j [] =
      encryptChunk gcmEnc gcmTag key pfx (c + j) (qs.getD j []) := by
  induction qs generalizing c j with
  | nil => simp at hj
  | cons q t ih =>
    cases j with
    | zero => simp [encRecords]
    | succ n =>
      simp only [encRecords, List.getD_cons_succ]
      rw [ih (c + 1) n (by simpa using hj)]
      have h : c + 1 + n = c + (n + 1) := by omega
      rw [h]

theorem encLoop_eq : ∀ (fuel c : Nat) (buf : List Nat),
    encLoop gcmEnc gcmTag key pfx fuel c buf =
      ((encRecords gcmEnc gcmTag key pfx c (chunkLoop fuel buf)).flatten,
        c + (chunkLoop fuel buf).length, chunkRest fuel buf)
  | 0, c, buf => by simp [encLoop, chunkLoop, chunkRest, encRecords]
  | fuel + 1, c, buf => by
    by_cases h : CHUNK_SIZE ≤ buf.length
    · simp only [encLoop, chunkLoop, chunkRest, if_pos h,
        encLoop_eq fuel (c + 1) (buf.drop CHUNK_SIZE), encRecords,
        List.flatten_cons, List.length_cons]
      simp only [Prod.mk.injEq]
      refine ⟨trivial, by omega, trivial⟩
    · simp only [encLoop, chunkLoop, chunkRest, if_neg h, encRecords]
      simp

/-- The total output of the encrypting stream on a single write event
`p`: the nonce prefix, the records of the chunk decomposition of `p`
with counters from 0, and the end marker. -/
theorem createEncryptStream_single (p : List Nat) :
    createEncryptStream gcmEnc gcmTag key pfx [p] =
      pfx ++ (encRecords gcmEnc gcmTag key pfx 0 (chunkify p)).flatten ++ [0, 0, 0, 0] := by
  show encRun gcmEnc gcmTag key pfx ⟨[], 0, false⟩ [p] = _
  simp only [encRun, encTransform, encFlush]
  rw [List.nil_append]
  rw [encLoop_eq gcmEnc gcmTag key pfx p.length 0 p]
  simp only [chunkify, encRecords_append, List.flatten_append]
  by_cases h : 0 < (chunkRest p.length p).length
  · rw [if_pos h, if_pos h]
    simp [encRecords, List.append_assoc]
  · rw [if_neg h, if_neg h]
    simp [encRecords, List.append_assoc]

theorem encryptChunk_length (c : Nat) (q : List Nat)
    (hct : (gcmEnc key (makeNonce pfx c) q).length = q.length)
    (htag : (gcmTag key (makeNonce pfx c) q).length = TAG_SIZE) :
    (encryptChunk gcmEnc gcmTag key pfx c q).length = 20 + q.length := by
  simp only [encryptChunk, List.length_append, writeUInt32BE_length, hct, htag,
    List.length_take, List.length_replicate, TAG_SIZE]
  omega

theorem encRecords_flatten_length (c : Nat) (qs : List (List Nat))
    (Hlen : ∀ n q, (gcmEnc key n q).length = q.length)
    (Htag : ∀ n q, (gcmTag key n q).length = TAG_SIZE) :
    (encRecords gcmEnc gcmTag key pfx c qs).flatten.length =
      20 * qs.length + (qs.map List.length).sum := by
  induction qs generalizing c with
  | nil => simp [encRecords]
  | cons q t ih =>
    simp only [encRecords, List.flatten_cons, List.length_append, List.map_cons,
      List.sum_cons, List.length_cons,
      encryptChunk_length gcmEnc gcmTag key pfx c q (Hlen _ _) (Htag _ _), ih (c + 1)]
    omega

end Encoder

/-! ## Decoder stepping lemmas -/

theorem DecOut.prepend_nil (o : DecOut) : DecOut.prepend [] o = o := by
  cases o <;> simp [DecOut.prepend]

theorem DecOut.prepend_prepend (a b : List Nat) (o : DecOut) :
    DecOut.prepend a (DecOut.prepend b o) = DecOut.prepend (a ++ b) o := by
  cases o <;> simp [DecOut.prepend]

section Decoder

variable (gcmDec : List Nat → List Nat → List Nat → List Nat → Option (List Nat))
variable (key pfx : List Nat)

/-- Reading the end marker: a zero length field ends the stream, and any
trailing bytes are discarded. -/
theorem decLoop_marker (fuel c : Nat) (rest : List Nat) :
    decLoop gcmDec key pfx (fuel + 1) c ([0, 0, 0, 0] ++ rest) = .ok [] := by
  simp only [decLoop, List.cons_append, List.nil_append]
  rw [if_neg (by simp [LENGTH_SIZE])]
  simp [readUInt32BE]

/-- Processing one complete wire record `[len][ct][tag]` built by
`encryptChunk` (under any encryption key/prefix/counter): the decoder
parses the framing and hands ciphertext and tag to the cipher with its
own nonce; failure aborts, success emits and continues with one fuel
consumed. -/
theorem decLoop_record (gcmEnc gcmTag : List Nat → List Nat → List Nat → List Nat)
    (kE pfxE : List Nat) (fuel c cE : Nat) (q rest : List Nat)
    (hq : q ≠ []) (hq32 : q.length < 2 ^ 32)
    (hct : (gcmEnc kE (makeNonce pfxE cE) q).length = q.length)
    (htag : (gcmTag kE (makeNonce pfxE cE) q).length = TAG_SIZE) :
    decLoop gcmDec key pfx (fuel + 1) c (encryptChunk gcmEnc gcmTag kE pfxE cE q ++ rest) =
      (gcmDec key (makeNonce pfx c) (gcmEnc kE (makeNonce pfxE cE) q)
          (gcmTag kE (makeNonce pfxE cE) q)).elim
        DecOut.authenticationFailure
        (fun pt => DecOut.prepend pt (decLoop gcmDec key pfx fuel (c + 1) rest)) := by
  have h1 : (gcmTag kE (makeNonce pfxE cE) q).take TAG_SIZE ++
      List.replicate (TAG_SIZE - (gcmTag kE (makeNonce pfxE cE) q).length) 0 =
      gcmTag kE (makeNonce pfxE cE) q := by
    rw [htag, Nat.sub_self, List.replicate_zero, List.append_nil]
    exact List.take_of_length_le (Nat.le_of_eq htag)
  have hbuf : encryptChunk gcmEnc gcmTag kE pfxE cE q ++ rest =
      writeUInt32BE q.length ++ (gcmEnc kE (makeNonce pfxE cE) q ++
        (gcmTag kE (makeNonce pfxE cE) q ++ rest)) := by
    simp only [encryptChunk, h1, List.append_assoc]
  rw [hbuf]
  simp only [decLoop]
  rw [if_neg (by simp only [List.length_append, writeUInt32BE_length, LENGTH_SIZE]; omega)]
  rw [readUInt32BE_write q.length hq32]
  rw [List.drop_left' (show (writeUInt32BE q.length).length = LENGTH_SIZE from rfl)]
  rw [if_neg (fun h => hq (List.length_eq_zero.mp h))]
  rw [if_neg (by simp only [List.length_append, hct, htag]; omega)]
  rw [List.take_left' hct, List.drop_left' hct, List.take_left' htag]
  rw [show (gcmEnc kE (makeNonce pfxE cE) q ++ (gcmTag kE (makeNonce pfxE cE) q ++ rest)).drop
        (q.length + TAG_SIZE) = rest by
    rw [← List.append_assoc]
    exact List.drop_left' (by simp [hct, htag])]
  cases gcmDec key (makeNonce pfx c) (gcmEnc kE (makeNonce pfxE cE) q)
      (gcmTag kE (makeNonce pfxE cE) q) with
  | none => rfl
  | some pt => cases decLoop gcmDec key pfx fuel (c + 1) rest <;> rfl

/-- Running the decoder over the genuine records of chunks `qs` with
matching counters: all tags verify, the chunks are emitted in order, and
the loop continues on the remainder with the counter advanced. -/
theorem decLoop_genuine (gcmEnc gcmTag : List Nat → List Nat → List Nat → List Nat)
    (Hlen : ∀ n q, (gcmEnc key n q).length = q.length)
    (Htag : ∀ n q, (gcmTag key n q).length = TAG_SIZE)
    (Hround : ∀ n q, gcmDec key n (gcmEnc key n q) (gcmTag key n q) = some q) :
    ∀ (qs : List (List Nat)) (fuel c : Nat) (rest : List Nat),
    (∀ q ∈ qs, q ≠ [] ∧ q.length < 2 ^ 32) →
    decLoop gcmDec key pfx (fuel + qs.length) c
        ((encRecords gcmEnc gcmTag key pfx c qs).flatten ++ rest) =
      DecOut.prepend qs.flatten (decLoop gcmDec key pfx fuel (c + qs.length) rest)
  | [], fuel, c, rest, _ => by
    simp [encRecords, DecOut.prepend_nil]
  | q :: t, fuel, c, rest, hqs => by
    have hfuel : fuel + (q :: t).length = (fuel + t.length) + 1 := by
      simp [List.length_cons]; omega
    rw [hfuel]
    simp only [encRecords, List.flatten_cons, List.append_assoc]
    rw [decLoop_record gcmDec key pfx gcmEnc gcmTag key pfx (fuel + t.length) c c q _
      (hqs q (by simp)).1 (hqs q (by simp)).2 (Hlen _ _) (Htag _ _)]
    rw [Hround (makeNonce pfx c) q, Option.elim_some]
    rw [decLoop_genuine gcmEnc gcmTag Hlen Htag Hround t fuel (c + 1) rest
      (fun x hx => hqs x (by simp [hx]))]
    rw [DecOut.prepend_prepend]
    simp only [List.flatten_cons, List.length_cons]
    have h : c + 1 + t.length = c + (t.length + 1) := by omega
    rw [h]

theorem DecOut.prepend_fail (a : List Nat) :
    DecOut.prepend a .authenticationFailure = .authenticationFailure := rfl

/-- Splitting the decoder entry point: the first 4 bytes are consumed as
the nonce prefix and the chunk loop runs on the rest with fuel equal to
the total input length. -/
theorem createDecryptStream_split
    (gcmDec : List Nat → List Nat → List Nat → List Nat → Option (List Nat))
    (key pfx body : List Nat) (hpfx : pfx.length = NONCE_PREFIX_SIZE) :
    createDecryptStream gcmDec key (pfx ++ body) =
      decLoop gcmDec key pfx (4 + body.length) 0 body := by
  unfold createDecryptStream
  rw [if_neg (by simp [List.length_append, hpfx, NONCE_PREFIX_SIZE])]
  rw [List.take_left' hpfx, List.drop_left' hpfx]
  rw [List.length_append, hpfx]
  rfl

end Decoder

/-! ## Claim theorems: the AEAD stream codec -/

/-- Claim C2: feeding the complete output of the AEAD encoder
`createEncryptStream(k)` on input `p` into the AEAD decoder
`createDecryptStream(k)` yields exactly `p` and no error, for every byte
sequence `p` and every 32-byte key — assuming only the standard AEAD
contract of the underlying AES-256-GCM cipher (ciphertext length equals
plaintext length, 16-byte tags, and decryption inverting encryption under
the same key and nonce). -/
theorem aead_roundtrip (gcmEnc gcmTag : List Nat → List Nat → List Nat → List Nat)
    (gcmDec : List Nat → List Nat → List Nat → List Nat → Option (List Nat))
    (key pfx p : List Nat)
    (hkey : key.length = KEY_SIZE)
    (hpfx : pfx.length = NONCE_PREFIX_SIZE)
    (Hlen : ∀ n q, (gcmEnc key n q).length = q.length)
    (Htag : ∀ n q, (gcmTag key n q).length = TAG_SIZE)
    (Hround : ∀ n q, gcmDec key n (gcmEnc key n q) (gcmTag key n q) = some q) :
    createDecryptStream gcmDec key
      (createEncryptStream gcmEnc gcmTag key pfx [p]) = DecOut.ok p := by
  rw [createEncryptStream_single, List.append_assoc, createDecryptStream_split _ _ _ _ hpfx]
  have hqs : ∀ q ∈ chunkify p, q ≠ [] ∧ q.length < 2 ^ 32 := by
    intro q hq
    have h := chunkify_mem p q hq
    exact ⟨h.1, by have := h.2; simp only [CHUNK_SIZE] at this; omega⟩
  set N := (chunkify p).length with hN
  set body := (encRecords gcmEnc gcmTag key pfx 0 (chunkify p)).flatten ++ [0, 0, 0, 0]
    with hbody
  have hflen : (encRecords gcmEnc gcmTag key pfx 0 (chunkify p)).flatten.length =
      20 * N + ((chunkify p).map List.length).sum :=
    encRecords_flatten_length gcmEnc gcmTag key pfx 0 (chunkify p) Hlen Htag
  have hfuel : 4 + body.length = ((4 + body.length - N) - 1 + 1) + N := by
    simp only [hbody, List.length_append]
    omega
  rw [hfuel]
  rw [decLoop_genuine gcmDec key pfx gcmEnc gcmTag Hlen Htag Hround (chunkify p)
    ((4 + body.length - N) - 1 + 1) 0 [0, 0, 0, 0] hqs]
  have hm : decLoop gcmDec key pfx ((4 + body.length - N) - 1 + 1) (0 + (chunkify p).length)
      [0, 0, 0, 0] = .ok [] := by
    simpa using decLoop_marker gcmDec key pfx ((4 + body.length - N) - 1)
      (0 + (chunkify p).length) []
  rw [hm, chunkify_flatten]
  simp [DecOut.prepend]

/-- Claim C10: for every non-empty byte sequence `p`, the total length of
the output of `createEncryptStream(k)` on `p` is exactly
`4 + len(p) + 20·⌈len(p)/65536⌉ + 4` bytes — the 4-byte nonce prefix,
the plaintext bytes, a 4-byte length field and a 16-byte tag per chunk,
and the 4-byte end marker — independent of the key and of the nonce
prefix value. -/
theorem encrypt_output_length (gcmEnc gcmTag : List Nat → List Nat → List Nat → List Nat)
    (key pfx p : List Nat)
    (hp : p ≠ [])
    (hpfx : pfx.length = NONCE_PREFIX_SIZE)
    (Hlen : ∀ n q, (gcmEnc key n q).length = q.length)
    (Htag : ∀ n q, (gcmTag key n q).length = TAG_SIZE) :
    (createEncryptStream gcmEnc gcmTag key pfx [p]).length =
      4 + p.length + 20 * ((p.length + 65535) / 65536) + 4 := by
  rw [createEncryptStream_single]
  have hflen := encRecords_flatten_length gcmEnc gcmTag key pfx 0 (chunkify p) Hlen Htag
  have hsum : ((chunkify p).map List.length).sum = p.length := by
    rw [← List.length_flatten, chunkify_flatten]
  have hcount := chunkify_length p hp
  simp only [List.length_append, hpfx, NONCE_PREFIX_SIZE, hflen, hsum, hcount, CHUNK_SIZE]
  have h20 : 64 * 1024 - 1 = 65535 := by norm_num
  have h21 : 64 * 1024 = 65536 := by norm_num
  rw [h20, h21]
  simp only [List.length_cons, List.length_nil]
  omega

/-- Claim C4 (counterexample): for the empty plaintext the encoded stream
contains no chunks at all — only the nonce prefix and the end marker — so
decoding with a different 32-byte key succeeds with empty output instead
of failing with an authentication error: nothing in the stream is
authenticated.  Keys `replicate 32 0` and `replicate 32 1` are distinct
32-byte keys. -/
theorem aead_wrong_key_empty_counterexample :
    (List.replicate 32 0 : List Nat) ≠ List.replicate 32 1 ∧
    createDecryptStream idealDec (List.replicate 32 1)
      (createEncryptStream idealEnc idealTag (List.replicate 32 0) [1, 2, 3, 4] [[]]) =
      DecOut.ok [] := by
  decide

/-- Claim C4 (amended): for every NON-empty byte sequence `p` and every
pair of distinct 32-byte keys, decoding the output of
`createEncryptStream(k1)` on `p` with `createDecryptStream(k2)` fails
with an authentication error, under the idealised AEAD contract (tag
verification under a different key fails).  For empty `p` the encoded
stream carries no chunks and decoding succeeds with empty output. -/
theorem aead_wrong_key_fails (gcmEnc gcmTag : List Nat → List Nat → List Nat → List Nat)
    (gcmDec : List Nat → List Nat → List Nat → List Nat → Option (List Nat))
    (k1 k2 pfx p : List Nat)
    (hne : k1 ≠ k2) (hp : p ≠ [])
    (hk1 : k1.length = KEY_SIZE) (hk2 : k2.length = KEY_SIZE)
    (hb1 : ByteList k1) (hb2 : ByteList k2) (hbp : ByteList pfx)
    (hpfx : pfx.length = NONCE_PREFIX_SIZE)
    (Hlen : ∀ k n q, (gcmEnc k n q).length = q.length)
    (Htag : ∀ k n q, (gcmTag k n q).length = TAG_SIZE)
    (Hauth : ∀ k n c t q, gcmDec k n c t = some q → t = gcmTag k n q)
    (Hbind : ∀ k k' n n' q q', ByteList k → ByteList k' → ByteList n → ByteList n' →
      gcmTag k n q = gcmTag k' n' q' → k = k' ∧ n = n') :
    createDecryptStream gcmDec k2 (createEncryptStream gcmEnc gcmTag k1 pfx [p]) =
      DecOut.authenticationFailure := by
  rw [createEncryptStream_single, List.append_assoc, createDecryptStream_split _ _ _ _ hpfx]
  have hchunks : chunkify p ≠ [] := by
    intro h
    have := chunkify_flatten p
    rw [h] at this
    exact hp this.symm
  obtain ⟨q, qs, hqqs⟩ := List.exists_cons_of_ne_nil hchunks
  rw [hqqs]
  simp only [encRecords, List.flatten_cons, List.append_assoc]
  have hfuel : ∀ (L : Nat), 4 + L = (3 + L) + 1 := by omega
  rw [List.length_append, hfuel]
  rw [decLoop_record gcmDec k2 pfx gcmEnc gcmTag k1 pfx _ 0 0 q _
    (chunkify_mem p q (by rw [hqqs]; simp)).1
    (by have := (chunkify_mem p q (by rw [hqqs]; simp)).2
        simp only [CHUNK_SIZE] at this; omega)
    (Hlen _ _ _) (Htag _ _ _)]
  cases hgd : gcmDec k2 (makeNonce pfx 0) (gcmEnc k1 (makeNonce pfx 0) q)
      (gcmTag k1 (makeNonce pfx 0) q) with
  | none => rw [Option.elim_none]
  | some q' =>
    exfalso
    have h1 := Hauth k2 (makeNonce pfx 0) _ _ q' hgd
    have h2 := Hbind k1 k2 (makeNonce pfx 0) (makeNonce pfx 0) q q' hb1 hb2
      (byteList_makeNonce pfx hbp 0) (byteList_makeNonce pfx hbp 0) h1
    exact hne h2.1

/-- Claim C9: in a chunked AEAD stream, swapping the full wire records of
any two distinct chunk positions (leaving every byte inside each record
intact) makes the decoder with the correct key fail with an
authentication error: the counter nonce binds each chunk's tag to its
position.  Stated for an arbitrary list `ps` of non-empty chunk
plaintexts of at most `CHUNK_SIZE` bytes with consecutive counters from
0 — by `createEncryptStream_single` and `chunkify_mem`, the body of every
encoded AEAD stream with at least two chunks has exactly this shape. -/
theorem chunk_swap_auth_fails (gcmEnc gcmTag : List Nat → List Nat → List Nat → List Nat)
    (gcmDec : List Nat → List Nat → List Nat → List Nat → Option (List Nat))
    (key pfx : List Nat) (ps : List (List Nat)) (i j : Nat)
    (hij : i < j) (hj : j < ps.length) (hj64 : j < 2 ^ 64)
    (hps : ∀ q ∈ ps, q ≠ [] ∧ q.length ≤ CHUNK_SIZE)
    (hbk : ByteList key) (hbp : ByteList pfx)
    (hkey : key.length = KEY_SIZE) (hpfx : pfx.length = NONCE_PREFIX_SIZE)
    (Hlen : ∀ n q, (gcmEnc key n q).length = q.length)
    (Htag : ∀ n q, (gcmTag key n q).length = TAG_SIZE)
    (Hround : ∀ n q, gcmDec key n (gcmEnc key n q) (gcmTag key n q) = some q)
    (Hauth : ∀ n c t q, gcmDec key n c t = some q → t = gcmTag key n q)
    (Hbind : ∀ k k' n n' q q', ByteList k → ByteList k' → ByteList n → ByteList n' →
      gcmTag k n q = gcmTag k' n' q' → k = k' ∧ n = n') :
    createDecryptStream gcmDec key
      (pfx ++ ((swapL (encRecords gcmEnc gcmTag key pfx 0 ps) i j).flatten ++ [0, 0, 0, 0])) =
      DecOut.authenticationFailure := by
  have hlrs : (encRecords gcmEnc gcmTag key pfx 0 ps).length = ps.length :=
    encRecords_length gcmEnc gcmTag key pfx 0 ps
  have hilt : i < (encRecords gcmEnc gcmTag key pfx 0 ps).length := by omega
  have hjq : ps.getD j [] ∈ ps := by
    rw [List.getD_eq_getElem ps [] hj]
    exact List.getElem_mem hj
  -- decompose the swapped record list around position i
  have hswap : swapL (encRecords gcmEnc gcmTag key pfx 0 ps) i j =
      encRecords gcmEnc gcmTag key pfx 0 (ps.take i) ++
        encryptChunk gcmEnc gcmTag key pfx j (ps.getD j []) ::
          (((encRecords gcmEnc gcmTag key pfx 0 ps).drop (i + 1)).set (j - i - 1)
            ((encRecords gcmEnc gcmTag key pfx 0 ps).getD i [])) := by
    unfold swapL
    have hInner : (encRecords gcmEnc gcmTag key pfx 0 ps).set i
        ((encRecords gcmEnc gcmTag key pfx 0 ps).getD j []) =
        (encRecords gcmEnc gcmTag key pfx 0 ps).take i ++
          ((encRecords gcmEnc gcmTag key pfx 0 ps).getD j []) ::
            (encRecords gcmEnc gcmTag key pfx 0 ps).drop (i + 1) := by
      rw [List.set_eq_take_append_cons_drop, if_pos hilt]
    rw [hInner]
    rw [List.set_append]
    rw [if_neg (by rw [List.length_take]; omega)]
    have hlt : ((encRecords gcmEnc gcmTag key pfx 0 ps).take i).length = i := by
      rw [List.length_take]; omega
    rw [hlt]
    have hji : j - i = (j - i - 1) + 1 := by omega
    rw [hji]
    rw [show ((a : List Nat) → (t : List (List Nat)) → (m : Nat) → (b : List Nat) →
      (a :: t).set (m + 1) b = a :: t.set m b) from fun _ _ _ _ => rfl]
    rw [encRecords_take]
    rw [encRecords_getD gcmEnc gcmTag key pfx 0 j ps hj]
    simp
  rw [hswap]
  simp only [List.flatten_append, List.flatten_cons, List.append_assoc]
  rw [createDecryptStream_split _ _ _ _ hpfx]
  have hqs : ∀ q ∈ ps.take i, q ≠ [] ∧ q.length < 2 ^ 32 := by
    intro q hq
    have h := hps q (List.mem_of_mem_take hq)
    exact ⟨h.1, by have := h.2; simp only [CHUNK_SIZE] at this; omega⟩
  have htif : (ps.take i).length = i := by rw [List.length_take]; omega
  set REST := encryptChunk gcmEnc gcmTag key pfx j (ps.getD j []) ++
      ((((encRecords gcmEnc gcmTag key pfx 0 ps).drop (i + 1)).set (j - i - 1)
        ((encRecords gcmEnc gcmTag key pfx 0 ps).getD i [])).flatten ++ [0, 0, 0, 0])
    with hREST
  have hflen := encRecords_flatten_length gcmEnc gcmTag key pfx 0 (ps.take i) Hlen Htag
  have hfuel : 4 + ((encRecords gcmEnc gcmTag key pfx 0 (ps.take i)).flatten ++ REST).length =
      (((4 + ((encRecords gcmEnc gcmTag key pfx 0 (ps.take i)).flatten ++ REST).length - i)
        - 1) + 1) + (ps.take i).length := by
    rw [htif]
    simp only [List.length_append]
    omega
  rw [hfuel]
  rw [decLoop_genuine gcmDec key pfx gcmEnc gcmTag Hlen Htag Hround (ps.take i) _ 0 REST hqs]
  rw [htif]
  rw [hREST]
  rw [decLoop_record gcmDec key pfx gcmEnc gcmTag key pfx _ (0 + i) j (ps.getD j []) _
    (hps _ hjq).1
    (by have := (hps _ hjq).2; simp only [CHUNK_SIZE] at this; omega)
    (Hlen _ _) (Htag _ _)]
  cases hgd : gcmDec key (makeNonce pfx (0 + i)) (gcmEnc key (makeNonce pfx j) (ps.getD j []))
      (gcmTag key (makeNonce pfx j) (ps.getD j [])) with
  | none => rw [Option.elim_none, DecOut.prepend_fail]
  | some q' =>
    exfalso
    have h1 := Hauth (makeNonce pfx (0 + i)) _ _ q' hgd
    have h2 := Hbind key key (makeNonce pfx j) (makeNonce pfx (0 + i)) (ps.getD j []) q'
      hbk hbk (byteList_makeNonce pfx hbp j) (byteList_makeNonce pfx hbp (0 + i)) h1
    have h3 := makeNonce_counter_inj pfx j (0 + i) hj64 (by omega) h2.2
    omega

/-! ## Claim theorems: topic key display/parse -/

theorem toSextets_lt : ∀ (l : List Nat), ByteList l → ∀ s ∈ toSextets l, s < 64 := by
  intro l
  induction l using toSextets.induct with
  | case1 b1 b2 b3 rest ih =>
    intro hb s hs
    have h1 : b1 < 256 := hb b1 (by simp)
    have h2 : b2 < 256 := hb b2 (by simp)
    have h3 : b3 < 256 := hb b3 (by simp)
    simp only [toSextets, List.mem_cons] at hs
    rcases hs with h | h | h | h | h
    · omega
    · omega
    · omega
    · omega
    · exact ih (fun x hx => hb x (by simp [hx])) s h
  | case2 b1 b2 =>
    intro hb s hs
    have h1 : b1 < 256 := hb b1 (by simp)
    have h2 : b2 < 256 := hb b2 (by simp)
    simp only [toSextets, List.mem_cons, List.not_mem_nil, or_false] at hs
    rcases hs with h | h | h <;> omega
  | case3 b1 =>
    intro hb s hs
    have h1 : b1 < 256 := hb b1 (by simp)
    simp only [toSextets, List.mem_cons, List.not_mem_nil, or_false] at hs
    rcases hs with h | h <;> omega
  | case4 =>
    intro _ s hs
    simp [toSextets] at hs

theorem fromSextets_toSextets : ∀ (l : List Nat), ByteList l →
    fromSextets (toSextets l) = l := by
  intro l
  induction l using toSextets.induct with
  | case1 b1 b2 b3 rest ih =>
    intro hb
    have h1 : b1 < 256 := hb b1 (by simp)
    have h2 : b2 < 256 := hb b2 (by simp)
    have h3 : b3 < 256 := hb b3 (by simp)
    simp only [toSextets, fromSextets]
    rw [ih (fun x hx => hb x (by simp [hx]))]
    refine List.cons_eq_cons.mpr ⟨by omega, List.cons_eq_cons.mpr ⟨by omega,
      List.cons_eq_cons.mpr ⟨by omega, rfl⟩⟩⟩
  | case2 b1 b2 =>
    intro hb
    have h1 : b1 < 256 := hb b1 (by simp)
    have h2 : b2 < 256 := hb b2 (by simp)
    simp only [toSextets, fromSextets]
    refine List.cons_eq_cons.mpr ⟨by omega, List.cons_eq_cons.mpr ⟨by omega, rfl⟩⟩
  | case3 b1 =>
    intro hb
    have h1 : b1 < 256 := hb b1 (by simp)
    simp only [toSextets, fromSextets]
    exact List.cons_eq_cons.mpr ⟨by omega, rfl⟩
  | case4 =>
    intro _
    rfl

theorem b64val_b64code : ∀ n, n < 64 → b64val (b64code n) = n := by decide

theorem isB64_b64code : ∀ n, n < 64 → isB64 (b64code n) = true := by decide

/-- Claim C8: for every 32-byte topic value `t`, the display/parse
roundtrip holds — `parseTopicKey` applied to the base64url (no padding)
display form produced by `generateTopicKey` returns exactly `t`. -/
theorem topic_key_roundtrip (t : List Nat) (hb : ByteList t) (hlen : t.length = KEY_SIZE) :
    parseTopicKey (displayKey t) = some t := by
  unfold parseTopicKey displayKey
  have hsx := toSextets_lt t hb
  have hfilter : ((toSextets t).map b64code).filter (fun c => isB64 c) =
      (toSextets t).map b64code := by
    apply List.filter_eq_self.mpr
    intro x hx
    obtain ⟨s, hs, rfl⟩ := List.mem_map.mp hx
    exact isB64_b64code s (hsx s hs)
  rw [hfilter, List.map_map]
  have hmap : (toSextets t).map (b64val ∘ b64code) = (toSextets t).map id :=
    List.map_congr_left (fun x hx => b64val_b64code x (hsx x hx))
  rw [hmap, List.map_id, fromSextets_toSextets t hb, if_pos hlen]

/-! ## Claim theorems: archive metadata agreement -/

theorem packTotalSize_append (a b : List PackEntry) :
    packTotalSize (a ++ b) = packTotalSize a + packTotalSize b := by
  simp [packTotalSize, List.filter_append]

theorem packFileCount_append (a b : List PackEntry) :
    packFileCount (a ++ b) = packFileCount a + packFileCount b := by
  simp [packFileCount, List.filter_append]

mutual
theorem metaTree_pack : ∀ (t : FSTree) (pre : String),
    (metaTree t).1 = packTotalSize (packTree pre t) ∧
    (metaTree t).2 = packFileCount (packTree pre t)
  | .file n c, pre => by
    simp [metaTree, packTree, packTotalSize, packFileCount, List.filter]
  | .dir n f, pre => by
    have h := metaForest_pack f (pre ++ n ++ "/")
    simp only [metaTree, packTree]
    simp only [packTotalSize, packFileCount, List.filter] at h ⊢
    simpa using h
  | .other n, pre => by
    simp [metaTree, packTree, packTotalSize, packFileCount]
theorem metaForest_pack : ∀ (f : FSForest) (pre : String),
    (metaForest f).1 = packTotalSize (packForest pre f) ∧
    (metaForest f).2 = packFileCount (packForest pre f)
  | .nil, pre => by
    simp [metaForest, packForest, packTotalSize, packFileCount]
  | .cons t f, pre => by
    have h1 := metaTree_pack t pre
    have h2 := metaForest_pack f pre
    simp only [metaForest, packForest, packTotalSize_append, packFileCount_append]
    omega
end

/-- Claim C7: for every source tree, the `totalSize` and `fileCount`
computed by the metadata probe `getTransferMetadata` (and placed in the
preamble) equal the number of file entries and the sum of file-content
byte lengths emitted by the archive pack stream `createPackStream` on the
same source. -/
theorem metadata_pack_agreement (t : FSTree) :
    (getTransferMetadata t).totalSize = packTotalSize (createPackStream t) ∧
    (getTransferMetadata t).fileCount = packFileCount (createPackStream t) := by
  cases t with
  | file n c =>
    simp [getTransferMetadata, createPackStream, packTotalSize, packFileCount, List.filter]
  | other n =>
    simp [getTransferMetadata, createPackStream, packTotalSize, packFileCount, List.filter]
  | dir n f =>
    exact metaForest_pack f (n ++ "/")

/-! ## Claim theorems: observed code behaviour on the spec's failing inputs -/

/-- Claim C1 (code behaviour at the failing input): `createExtractStream`
performs no sanitisation of entry names, so the tar entry named
`../etc/evil` (ASCII codes below) against destination `/tmp/dst`
(components `tmp`, `dst`) is written to `/tmp/etc/evil`, a path outside
the destination directory, and no `UnsafeArchivePath` error exists in the
code (the entry handler has no rejection path at all). -/
theorem extract_path_traversal :
    extractOutputPath [[116, 109, 112], [100, 115, 116]]
        [46, 46, 47, 101, 116, 99, 47, 101, 118, 105, 108] =
      [[116, 109, 112], [101, 116, 99], [101, 118, 105, 108]] ∧
    ¬ ([[116, 109, 112], [100, 115, 116]] <+:
      extractOutputPath [[116, 109, 112], [100, 115, 116]]
        [46, 46, 47, 101, 116, 99, 47, 101, 118, 105, 108]) := by
  decide

/-- Claim C3 (code behaviour at the failing input): the decrypting
transform has no `flush` handler, so an input that ends before the
4-zero-byte end marker completes WITHOUT error: cutting the valid
encoded stream of plaintext `[7]` at any point never produces a failure,
and cutting it right before the end marker (position 25 of 29) even
emits the full decrypted chunk `[7]` and ends successfully. -/
theorem decrypt_truncated_completes :
    (∀ n < (createEncryptStream idealEnc idealTag (List.replicate 32 0) [1, 2, 3, 4]
        [[7]]).length,
      createDecryptStream idealDec (List.replicate 32 0)
          ((createEncryptStream idealEnc idealTag (List.replicate 32 0) [1, 2, 3, 4]
            [[7]]).take n) ≠
        DecOut.authenticationFailure) ∧
    createDecryptStream idealDec (List.replicate 32 0)
        ((createEncryptStream idealEnc idealTag (List.replicate 32 0) [1, 2, 3, 4]
          [[7]]).take 25) =
      DecOut.ok [7] := by
  decide

/-- Claim C5 (code behaviour at the failing input): the encrypting
transform only pushes the nonce prefix from its `transform` callback, so
on an empty input (zero data events) the `flush` callback emits the end
marker alone — the output is `[0,0,0,0]` and does NOT begin with the
4-byte nonce prefix, contradicting the documented stream format. -/
theorem encrypt_empty_no_prefix :
    createEncryptStream idealEnc idealTag (List.replicate 32 0) [1, 2, 3, 4] [] =
      [0, 0, 0, 0] ∧
    ¬ ([1, 2, 3, 4] <+:
      createEncryptStream idealEnc idealTag (List.replicate 32 0) [1, 2, 3, 4] []) := by
  decide

/-- Claim C6 (code behaviour at the failing input): with compression
disabled, the flag prepender only pushes the flag byte from its
`transform` callback and has no `flush` handler, so on an empty input
(zero data events) it emits nothing at all — no `0x00` flag byte —
regardless of the zstd codec. -/
theorem compress_disabled_empty_no_flag (zstdC : List Nat → List Nat) :
    createCompressStream zstdC false [] = [] := rfl

/-! ## Witnesses -/

theorem aead_roundtrip_witness :
    createDecryptStream idealDec (List.replicate 32 0)
      (createEncryptStream idealEnc idealTag (List.replicate 32 0) [1, 2, 3, 4]
        [[7, 8, 9]]) = DecOut.ok [7, 8, 9] :=
  aead_roundtrip idealEnc idealTag idealDec (List.replicate 32 0) [1, 2, 3, 4] [7, 8, 9]
    (by decide) (by decide)
    (fun n q => idealEnc_length (List.replicate 32 0) n q)
    (fun n q => idealTag_length (List.replicate 32 0) n q)
    (fun n q => idealDec_enc (List.replicate 32 0) n q)

theorem encrypt_output_length_witness :
    (createEncryptStream idealEnc idealTag (List.replicate 32 0) [1, 2, 3, 4]
      [[7]]).length = 4 + [7].length + 20 * (([7].length + 65535) / 65536) + 4 :=
  encrypt_output_length idealEnc idealTag (List.replicate 32 0) [1, 2, 3, 4] [7]
    (by decide) (by decide)
    (fun n q => idealEnc_length (List.replicate 32 0) n q)
    (fun n q => idealTag_length (List.replicate 32 0) n q)

theorem aead_wrong_key_fails_witness :
    createDecryptStream idealDec (List.replicate 32 1)
      (createEncryptStream idealEnc idealTag (List.replicate 32 0) [1, 2, 3, 4] [[7]]) =
      DecOut.authenticationFailure :=
  aead_wrong_key_fails idealEnc idealTag idealDec (List.replicate 32 0)
    (List.replicate 32 1) [1, 2, 3, 4] [7]
    (by decide) (by decide) (by decide) (by decide) (by decide) (by decide) (by decide)
    (by decide)
    (fun k n q => idealEnc_length k n q)
    (fun k n q => idealTag_length k n q)
    (fun k n c t q h => idealDec_auth k n c t q h)
    (fun k k' n n' q q' hk hk' hn hn' h => idealTag_bind k k' n n' q q' hk hk' hn hn' h)

theorem chunk_swap_auth_fails_witness :
    createDecryptStream idealDec (List.replicate 32 0)
      ([1, 2, 3, 4] ++
        ((swapL (encRecords idealEnc idealTag (List.replicate 32 0) [1, 2, 3, 4] 0
          [[5], [6]]) 0 1).flatten ++ [0, 0, 0, 0])) =
      DecOut.authenticationFailure :=
  chunk_swap_auth_fails idealEnc idealTag idealDec (List.replicate 32 0) [1, 2, 3, 4]
    [[5], [6]] 0 1
    (by decide) (by decide) (by decide) (by decide) (by decide) (by decide) (by decide)
    (by decide)
    (fun n q => idealEnc_length (List.replicate 32 0) n q)
    (fun n q => idealTag_length (List.replicate 32 0) n q)
    (fun n q => idealDec_enc (List.replicate 32 0) n q)
    (fun n c t q h => idealDec_auth (List.replicate 32 0) n c t q h)
    (fun k k' n n' q q' hk hk' hn hn' h => idealTag_bind k k' n n' q q' hk hk' hn hn' h)

theorem topic_key_roundtrip_witness :
    parseTopicKey (displayKey (List.range 32)) = some (List.range 32) :=
  topic_key_roundtrip (List.range 32) (by decide) (by decide)

end EzShare
